import Mathlib

/-!
# Verification of the Davidson block eigensolver (`qimpy/electrons/_davidson.py`)

Shallow embedding of the Davidson iterative eigensolver from
`src/qimpy/electrons/_davidson.py` and proofs of the specified properties.

Modelling conventions:
* An orbital block (`C`, `HC`, `Cexp`, ...) for one spin channel and k-point is a
  `Matrix g b R` whose columns are bands and whose rows are basis coefficients,
  over a commutative star ring `R` (the complex coefficients of the code).
* `X ^ Y` of the code (band-space inner products) becomes `Xᴴ * Y`; the
  overlap-weighted form `X.dot(Y, overlap=True)` becomes `Xᴴ * O * Y` for the
  basis overlap metric `O`.
* `C @ V` of the code (mixing bands by a rotation matrix) becomes `C * V`.
* Distributed tensors (`dE` indexed by spin, k, band, held per partition) become
  functions `Fin ns → Fin nk → ℕ → ℚ`, one per partition, collected in a list;
  `allreduce MAX` / `allreduce MIN` become maximum / minimum over that list.
* Python `Optional` arguments become `Option`; Python truthiness of a numeric
  argument becomes a nonzero test.
* A raised `ValueError` becomes an `Option`-valued result (`none` = raised).
-/

namespace QimpyDavidson

open Matrix

section DataModel

variable {R : Type} [CommRing R] [StarRing R]
variable {g b e m : Type} [Fintype g] [Fintype b] [Fintype e] [Fintype m]

/-- Band-space inner product `X ^ Y` of the code (`Wavefunction.dot` without
overlap weighting): entry `(i, j)` is `Σ_g conj (X g i) * (Y g j)`. -/
def bandDot (X : Matrix g b R) (Y : Matrix g e R) : Matrix b e R := Xᴴ * Y

/-- Overlap-weighted band inner product `X.dot(Y, overlap=True)` of the code,
with `O` the basis overlap metric: entry `(i, j)` is `⟨X_i | O | Y_j⟩`. -/
def bandDotO (O : Matrix g g R) (X : Matrix g b R) (Y : Matrix g e R) : Matrix b e R :=
  Xᴴ * O * Y

end DataModel

section InitCheck

variable {R : Type} [CommRing R] [StarRing R]
variable {g b : Type} [Fintype g] [Fintype b]

/-- The guard at the top of `Davidson.__call__`
(`if 2 * n_bands_max >= electrons.basis.n_min: raise ValueError(...)`)
followed by the first Hamiltonian application `HC = electrons.hamiltonian(C)`.
The result is `none` when the `ValueError` is raised; the second component
logs every orbital block the Hamiltonian operator was applied to. -/
def davidsonInitCheck (nBandsMax nMin : ℕ) (ham : Matrix g b R → Matrix g b R)
    (C : Matrix g b R) : Option (Matrix g b R) × List (Matrix g b R) :=
  if 2 * nBandsMax ≥ nMin then (none, [])
  else (some (ham C), [C])

end InitCheck

section Regularize

variable {V : Type} {ι : Type}

/-- `Davidson._regularize`: bands of `C` whose recorded norm is strictly below
`normCut` are replaced by freshly seeded random vectors and their recorded norm
is set to `1`; all other bands are untouched.  `ι` indexes (spin, k, band)
triples jointly.  `randomize` models `Wavefunction.randomize_selected`
(repository code outside `src/`): an abstract deterministic generator taking the
seed (the iteration number `i_iter` in the code) and the band index. -/
def regularize (normCut : ℚ) (C : ι → V) (nrm : ι → ℚ)
    (randomize : ℕ → ι → V) (iIter : ℕ) : (ι → V) × (ι → ℚ) :=
  (fun i => if nrm i < normCut then randomize iIter i else C i,
   fun i => if nrm i < normCut then 1 else nrm i)

end Regularize

section CallOverrides

/-- Python truthiness of the optional integer argument `n_iterations`:
`None` and `0` are falsy. -/
def pyTruthyNat (arg : Option ℕ) : Bool :=
  match arg with
  | none => false
  | some n => decide (n ≠ 0)

/-- Python truthiness of the optional float argument `eig_threshold`:
`None` and `0.0` are falsy. -/
def pyTruthyRat (arg : Option ℚ) : Bool :=
  match arg with
  | none => false
  | some q => decide (q ≠ 0)

/-- `n_iterations = n_iterations if n_iterations else self.n_iterations`. -/
def resolveNIterations (arg : Option ℕ) (dflt : ℕ) : ℕ :=
  if pyTruthyNat arg then arg.getD dflt else dflt

/-- `eig_threshold = eig_threshold if eig_threshold else self.eig_threshold`. -/
def resolveEigThreshold (arg : Option ℚ) (dflt : ℚ) : ℚ :=
  if pyTruthyRat arg then arg.getD dflt else dflt

/-- `inner_loop = (n_iterations or eig_threshold) and (not helper)`. -/
def innerLoopFlag (nIt : Option ℕ) (thr : Option ℚ) (helper : Bool) : Bool :=
  (pyTruthyNat nIt || pyTruthyRat thr) && !helper

/-- `converge_failed = (i_iter == n_iterations) and
(not (inner_loop or helper or converged))`: whether the failure-to-converge
notice is emitted at the end of an iteration. -/
def convergeFailedFlag (iIter nIterations : ℕ)
    (innerLoop helper converged : Bool) : Bool :=
  (iIter == nIterations) && !(innerLoop || helper || converged)

end CallOverrides

section TheoremsC2

variable {R : Type} [CommRing R] [StarRing R]
variable {g b : Type} [Fintype g] [Fintype b]

/-- **C2, counterexample.** With `n_bands + n_bands_extra = 7` and minimum
basis size `14`, the requested band count equals exactly half the minimum
basis size, so by the claim no error should be raised; but the code's guard
`2 * n_bands_max >= n_min` does raise (`isSome = false`).  The claim's
boundary clause is therefore false on the code. -/
theorem davidson_half_boundary_rejected :
    ¬ (7 > 14 / 2) ∧
      (davidsonInitCheck 7 14 (fun X : Matrix (Fin 1) (Fin 1) ℤ => X) 1).1.isSome
        = false := by
  constructor
  · decide
  · rfl

/-- **C2, amended.** `Davidson.__call__` raises the configuration `ValueError`
exactly when `2 * (n_bands + n_bands_extra) ≥ min(n_basis)` — so the boundary
case of exactly half the minimum basis size is also rejected — and whenever it
raises, the Hamiltonian operator has been applied to no orbital block; when it
does not raise, the call proceeds to apply the Hamiltonian exactly once, to the
initial orbitals. -/
theorem davidson_basis_size_guard (nBandsMax nMin : ℕ)
    (ham : Matrix g b R → Matrix g b R) (C : Matrix g b R) :
    ((davidsonInitCheck nBandsMax nMin ham C).1.isSome = false ↔
      2 * nBandsMax ≥ nMin) ∧
    (2 * nBandsMax ≥ nMin → (davidsonInitCheck nBandsMax nMin ham C).2 = []) ∧
    (¬ 2 * nBandsMax ≥ nMin →
      davidsonInitCheck nBandsMax nMin ham C = (some (ham C), [C])) := by
  unfold davidsonInitCheck
  by_cases h : 2 * nBandsMax ≥ nMin <;> simp [h]

/-- **C2, witness** for `davidson_basis_size_guard`, at the spec's scenario
`n_bands = 10`, `n_bands_extra = 10`, minimum basis size `15`: the error is
raised and the Hamiltonian was never applied. -/
theorem davidson_basis_size_guard_witness :
    ((davidsonInitCheck 20 15 (fun X : Matrix (Fin 1) (Fin 1) ℤ => X) 1).1.isSome
        = false) ∧
      (davidsonInitCheck 20 15 (fun X : Matrix (Fin 1) (Fin 1) ℤ => X) 1).2 = [] :=
  ⟨(davidson_basis_size_guard 20 15 _ 1).1.mpr (by norm_num),
   (davidson_basis_size_guard 20 15 _ 1).2.1 (by norm_num)⟩

end TheoremsC2

section TheoremsC7

variable {V : Type} {ι : Type}

/-- **C7.** `Davidson._regularize` replaces exactly the bands whose recorded
norm is strictly below the numerical-noise threshold with random vectors seeded
by the iteration index, sets the recorded norm of exactly those bands to `1`,
leaves every other band and norm unchanged, and (being a total function) never
raises; moreover for a positive threshold no resulting recorded norm is zero,
so the downstream normalization `Cexp *= 1/norm_exp` never divides by zero. -/
theorem regularize_spec (normCut : ℚ) (C : ι → V) (nrm : ι → ℚ)
    (randomize : ℕ → ι → V) (iIter : ℕ) (i : ι) :
    (nrm i < normCut →
      (regularize normCut C nrm randomize iIter).1 i = randomize iIter i ∧
      (regularize normCut C nrm randomize iIter).2 i = 1) ∧
    (¬ nrm i < normCut →
      (regularize normCut C nrm randomize iIter).1 i = C i ∧
      (regularize normCut C nrm randomize iIter).2 i = nrm i) ∧
    (0 < normCut → (regularize normCut C nrm randomize iIter).2 i ≠ 0) := by
  unfold regularize
  by_cases h : nrm i < normCut
  · refine ⟨fun _ => ⟨by simp [h], by simp [h]⟩, fun hc => absurd h hc, fun _ => ?_⟩
    simp [h]
  · refine ⟨fun hc => absurd hc h, fun _ => ⟨by simp [h], by simp [h]⟩, fun hpos => ?_⟩
    simp only [if_neg h]
    intro h0
    rw [h0] at h
    exact h hpos

/-- **C7, witness** for `regularize_spec`: two bands over `ι = Fin 2`, one with
norm `0` (below the cut, randomized, norm set to `1`) and one with norm `1`
(kept).  All three hypotheses of the theorem are discharged concretely. -/
theorem regularize_spec_witness :
    ((0 : ℚ) < 1/2 →
      (regularize (1/2) (fun _ : Fin 2 => (0 : ℤ)) ![0, 1] (fun _ _ => 7) 3).1 0 = 7 ∧
      (regularize (1/2) (fun _ : Fin 2 => (0 : ℤ)) ![0, 1] (fun _ _ => 7) 3).2 0 = 1) ∧
    (¬ (1 : ℚ) < 1/2 →
      (regularize (1/2) (fun _ : Fin 2 => (0 : ℤ)) ![0, 1] (fun _ _ => 7) 3).1 1 = 0 ∧
      (regularize (1/2) (fun _ : Fin 2 => (0 : ℤ)) ![0, 1] (fun _ _ => 7) 3).2 1 = 1) ∧
    ((0 : ℚ) < 1/2 →
      (regularize (1/2) (fun _ : Fin 2 => (0 : ℤ)) ![0, 1] (fun _ _ => 7) 3).2 1 ≠ 0) := by
  refine ⟨fun _ => ?_, fun _ => ?_, fun h => ?_⟩
  · exact (regularize_spec (1/2) (fun _ : Fin 2 => (0 : ℤ)) ![0, 1] (fun _ _ => 7) 3 0).1
      (by norm_num)
  · have h2 := (regularize_spec (1/2) (fun _ : Fin 2 => (0 : ℤ)) ![0, 1] (fun _ _ => 7) 3 1).2.1
      (by norm_num)
    simpa using h2
  · exact (regularize_spec (1/2) (fun _ : Fin 2 => (0 : ℤ)) ![0, 1] (fun _ _ => 7) 3 1).2.2 h

end TheoremsC7

section TheoremsC10

/-- **C10.** In `Davidson.__call__`, an override of `n_iterations = 0` or
`eig_threshold = 0.0` is Python-falsy and hence treated exactly like an absent
argument (the stored defaults are used), so a zero-iteration or zero-threshold
solve cannot be requested; any nonzero override supplied without `helper = True`
makes `inner_loop` true; and when `inner_loop` is true the failure-to-converge
notice `converge_failed` is suppressed in every iteration. -/
theorem call_overrides_spec (dN : ℕ) (dT : ℚ) :
    (resolveNIterations (some 0) dN = dN ∧ resolveNIterations none dN = dN) ∧
    (resolveEigThreshold (some 0) dT = dT ∧ resolveEigThreshold none dT = dT) ∧
    (∀ n : ℕ, n ≠ 0 → ∀ thr : Option ℚ, innerLoopFlag (some n) thr false = true) ∧
    (∀ q : ℚ, q ≠ 0 → ∀ nIt : Option ℕ, innerLoopFlag nIt (some q) false = true) ∧
    (∀ (nIt : Option ℕ) (thr : Option ℚ) (helper : Bool),
      innerLoopFlag nIt thr helper = true →
      ∀ (iIter nIterations : ℕ) (converged : Bool),
        convergeFailedFlag iIter nIterations (innerLoopFlag nIt thr helper)
          helper converged = false) := by
  refine ⟨⟨rfl, rfl⟩, ⟨rfl, rfl⟩, ?_, ?_, ?_⟩
  · intro n hn thr
    simp [innerLoopFlag, pyTruthyNat, hn]
  · intro q hq nIt
    simp [innerLoopFlag, pyTruthyRat, hq]
  · intro nIt thr helper hloop iIter nIterations converged
    simp [convergeFailedFlag, hloop]

/-- **C10, witness** for `call_overrides_spec` at defaults `n_iterations = 100`,
`eig_threshold = 1/10^8`, override `n_iterations = 50` without helper: the
zero/absent overrides resolve to the defaults, the nonzero override turns on
inner-loop mode, and the failure notice is suppressed there. -/
theorem call_overrides_spec_witness :
    (resolveNIterations (some 0) 100 = 100 ∧ resolveNIterations none 100 = 100) ∧
    (innerLoopFlag (some 50) none false = true) ∧
    (convergeFailedFlag 50 50 (innerLoopFlag (some 50) none false) false false
      = false) :=
  ⟨⟨(call_overrides_spec 100 (1/100000000)).1.1, (call_overrides_spec 100 (1/100000000)).1.2⟩,
   (call_overrides_spec 100 (1/100000000)).2.2.1 50 (by norm_num) none,
   (call_overrides_spec 100 (1/100000000)).2.2.2.2 (some 50) none false
     ((call_overrides_spec 100 (1/100000000)).2.2.1 50 (by norm_num) none) 50 50 false⟩

end TheoremsC10

section Subspace

variable {R : Type} [CommRing R] [StarRing R]
variable {g b e m p : Type} [Fintype g] [Fintype b] [Fintype e] [Fintype m] [Fintype p]

/-- The expanded overlap matrix `C_OC_new` assembled in `Davidson.__call__`
(lines 141-151): top-left block the literal identity (`torch.eye`, the current
bands being assumed orthonormal), top-right `C_OCexp` computed via the overlap
inner product, bottom-left derived from it by conjugate transposition
(`Cexp_OC = C_OCexp.conj().transpose(-2, -1)`), bottom-right `Cexp_OCexp`
computed. -/
def subspaceOverlap [DecidableEq b] (O : Matrix g g R) (C : Matrix g b R)
    (Cexp : Matrix g e R) : Matrix (b ⊕ e) (b ⊕ e) R :=
  fromBlocks 1 (bandDotO O C Cexp) (bandDotO O C Cexp)ᴴ (bandDotO O Cexp Cexp)

/-- The expanded Hamiltonian matrix `C_HC_new` assembled in lines 153-163:
top-left `torch.diag_embed(E)`, top-right `C_HCexp = C ^ HCexp` computed,
bottom-left derived from it by conjugate transposition, bottom-right
`Cexp ^ HCexp`. -/
def subspaceHam [DecidableEq b] (Evals : b → R) (C : Matrix g b R)
    (Cexp HCexp : Matrix g e R) : Matrix (b ⊕ e) (b ⊕ e) R :=
  fromBlocks (diagonal Evals) (bandDot C HCexp) (bandDot C HCexp)ᴴ
    (bandDot Cexp HCexp)

/-- The fused truncation/rotation `C @ Vcur + Cexp @ Vexp` of lines 172-173
(and identically for `HC` in lines 175-176), where `V` holds the retained
`n_bands_next` columns of the generalized eigenvectors, `toRows₁ V = Vcur`
being its current-band rows and `toRows₂ V = Vexp` its expansion-band rows. -/
def davidsonRotate (C : Matrix g b R) (Cexp : Matrix g e R)
    (V : Matrix (b ⊕ e) m R) : Matrix g m R :=
  C * toRows₁ V + Cexp * toRows₂ V

/-- The initial subspace rotation `C = C @ V` of lines 118-120, with `V` the
eigenvector matrix returned by `torch.linalg.eigh(C ^ HC)`. -/
def initialRotate (C : Matrix g b R) (V : Matrix b b R) : Matrix g b R := C * V

/-- The rotated block equals the concatenated block `[C, Cexp]` times `V`. -/
theorem davidsonRotate_eq_fromColumns_mul (C : Matrix g b R) (Cexp : Matrix g e R)
    (V : Matrix (b ⊕ e) m R) :
    davidsonRotate C Cexp V = fromColumns C Cexp * V := by
  conv_rhs => rw [← fromRows_toRows V]
  rw [fromColumns_mul_fromRows]
  rfl

/-- Rotating a block by `V` conjugates its overlap-metric Gram matrix by `V`. -/
theorem bandDotO_mul_right (O : Matrix g g R) (S : Matrix g p R)
    (V : Matrix p m R) :
    bandDotO O (S * V) (S * V) = Vᴴ * bandDotO O S S * V := by
  simp only [bandDotO, conjTranspose_mul, Matrix.mul_assoc]

/-- Conjugate-transposing an overlap inner product swaps its arguments, for a
Hermitian overlap metric. -/
theorem bandDotO_conjTranspose (O : Matrix g g R) (hO : Oᴴ = O)
    (X : Matrix g b R) (Y : Matrix g e R) :
    (bandDotO O X Y)ᴴ = bandDotO O Y X := by
  simp only [bandDotO, conjTranspose_mul, conjTranspose_conjTranspose, hO,
    Matrix.mul_assoc]

/-- When the current block is orthonormal under a Hermitian overlap metric, the
matrix `C_OC_new` assembled by the code (identity block constructed, bottom-left
block derived) is exactly the overlap Gram matrix of the concatenated block
`[C, Cexp]`. -/
theorem subspaceOverlap_eq_gram [DecidableEq b] (O : Matrix g g R)
    (C : Matrix g b R) (Cexp : Matrix g e R) (hO : Oᴴ = O)
    (hC : bandDotO O C C = 1) :
    bandDotO O (fromColumns C Cexp) (fromColumns C Cexp)
      = subspaceOverlap O C Cexp := by
  have key : bandDotO O (fromColumns C Cexp) (fromColumns C Cexp)
      = fromBlocks (bandDotO O C C) (bandDotO O C Cexp) (bandDotO O Cexp C)
          (bandDotO O Cexp Cexp) := by
    unfold bandDotO
    rw [conjTranspose_fromColumns_eq_fromRows_conjTranspose, fromRows_mul,
      fromRows_mul_fromColumns]
  rw [key, hC, ← bandDotO_conjTranspose O hO C Cexp]
  rfl

end Subspace

section TheoremsC1

variable {R : Type} [CommRing R] [StarRing R]
variable {g b e m : Type} [Fintype g] [Fintype b] [Fintype e] [Fintype m]

/-- **C1.** Orthonormality invariant of the Davidson iteration: for every spin
channel and k-point `sk`, if the block `C` entering the iteration is
orthonormal under the (Hermitian) basis overlap metric, and the retained
generalized-eigenvector columns `V` returned by `qp.utils.eighg` satisfy the
generalized-eigensolver contract `Vᴴ * C_OC_new * V = 1` with respect to the
assembled overlap matrix, then the block retained at the end of the iteration
(`C @ Vcur + Cexp @ Vexp`, also the block handed back at termination) is again
exactly orthonormal under the overlap metric. -/
theorem orthonormal_after_iteration {w : Type} [DecidableEq b] [DecidableEq m]
    (O : w → Matrix g g R) (C : w → Matrix g b R) (Cexp : w → Matrix g e R)
    (V : w → Matrix (b ⊕ e) m R)
    (hO : ∀ sk, (O sk)ᴴ = O sk)
    (hC : ∀ sk, bandDotO (O sk) (C sk) (C sk) = 1)
    (hV : ∀ sk, (V sk)ᴴ * subspaceOverlap (O sk) (C sk) (Cexp sk) * V sk = 1) :
    ∀ sk, bandDotO (O sk) (davidsonRotate (C sk) (Cexp sk) (V sk))
      (davidsonRotate (C sk) (Cexp sk) (V sk)) = 1 := by
  intro sk
  rw [davidsonRotate_eq_fromColumns_mul, bandDotO_mul_right,
    subspaceOverlap_eq_gram (O sk) (C sk) (Cexp sk) (hO sk) (hC sk)]
  exact hV sk

/-- **C1, witness** for `orthonormal_after_iteration`: one spin/k-point, basis
size 2, one current band `(1,0)ᵀ`, one expansion band `(0,1)ᵀ`, identity
overlap metric, and retained eigenvector column `(1,0)ᵀ` in the expanded
subspace; all hypotheses hold and the retained block is orthonormal. -/
theorem orthonormal_after_iteration_witness :
    ((1 : Matrix (Fin 2) (Fin 2) ℤ)ᴴ = 1) ∧
    (bandDotO (1 : Matrix (Fin 2) (Fin 2) ℤ) !![1; 0] !![1; 0] = 1) ∧
    ((fromRows (!![1] : Matrix (Fin 1) (Fin 1) ℤ)
        (!![0] : Matrix (Fin 1) (Fin 1) ℤ))ᴴ *
        subspaceOverlap (1 : Matrix (Fin 2) (Fin 2) ℤ) !![1; 0] !![0; 1] *
        fromRows (!![1] : Matrix (Fin 1) (Fin 1) ℤ) !![0] = 1) ∧
    bandDotO (1 : Matrix (Fin 2) (Fin 2) ℤ)
      (davidsonRotate !![1; 0] !![0; 1]
        (fromRows (!![1] : Matrix (Fin 1) (Fin 1) ℤ) !![0]))
      (davidsonRotate !![1; 0] !![0; 1]
        (fromRows (!![1] : Matrix (Fin 1) (Fin 1) ℤ) !![0])) = 1 := by
  have h1 : ((1 : Matrix (Fin 2) (Fin 2) ℤ)ᴴ = 1) := by decide
  have h2 : bandDotO (1 : Matrix (Fin 2) (Fin 2) ℤ) !![1; 0] !![1; 0] = 1 := by
    decide
  have h3 : ((fromRows (!![1] : Matrix (Fin 1) (Fin 1) ℤ)
      (!![0] : Matrix (Fin 1) (Fin 1) ℤ))ᴴ *
      subspaceOverlap (1 : Matrix (Fin 2) (Fin 2) ℤ) !![1; 0] !![0; 1] *
      fromRows (!![1] : Matrix (Fin 1) (Fin 1) ℤ) !![0] = 1) := by decide
  exact ⟨h1, h2, h3,
    orthonormal_after_iteration (w := Unit) (fun _ => 1) (fun _ => !![1; 0])
      (fun _ => !![0; 1])
      (fun _ => fromRows (!![1] : Matrix (Fin 1) (Fin 1) ℤ) !![0])
      (fun _ => h1) (fun _ => h2) (fun _ => h3) ()⟩

end TheoremsC1

section IterStep

variable {R : Type} [CommRing R] [StarRing R]
variable {g b e m : Type} [Fintype g] [Fintype b] [Fintype e] [Fintype m]

/-- The truncation phase of one Davidson iteration (lines 154 and 166-176),
instrumented: `ham` is the external Hamiltonian-application primitive
(`electrons.hamiltonian`, repository code outside `src/`), and the second
component logs every block it is invoked on.  `HCexp = ham Cexp` is computed
once (line 154); then `C` and `HC` are rotated by one and the same pair
`(Vcur, Vexp) = (toRows₁ V, toRows₂ V)` (lines 172-176), and `HC` is never
recomputed by reapplying the operator. -/
def davidsonIterStep (ham : Matrix g e R → Matrix g e R) (C HC : Matrix g b R)
    (Cexp : Matrix g e R) (V : Matrix (b ⊕ e) m R) :
    (Matrix g m R × Matrix g m R) × List (Matrix g e R) :=
  let hcall := (ham Cexp, [Cexp])
  ((C * toRows₁ V + Cexp * toRows₂ V, HC * toRows₁ V + hcall.1 * toRows₂ V),
    hcall.2)

end IterStep

section TheoremsC5

variable {R : Type} [CommRing R] [StarRing R]
variable {g b e m : Type} [Fintype g] [Fintype b] [Fintype e] [Fintype m]

/-- **C5.** In every iteration the truncation step applies one and the same
rotation `(Vcur, Vexp)` to `C` and to `HC`, so that when the Hamiltonian is a
linear operator (multiplication by a matrix `Hm`) and `HC = Hm * C` on entry,
the updated operator image still equals the Hamiltonian applied to the updated
block; and the operator-application primitive is invoked exactly once in the
iteration, on the expansion block only — never to recompute `HC`. -/
theorem iteration_keeps_hc_consistent (Hm : Matrix g g R) (C HC : Matrix g b R)
    (Cexp : Matrix g e R) (V : Matrix (b ⊕ e) m R) (hHC : HC = Hm * C) :
    (davidsonIterStep (fun X => Hm * X) C HC Cexp V).1.2
        = Hm * (davidsonIterStep (fun X => Hm * X) C HC Cexp V).1.1 ∧
    (davidsonIterStep (fun X => Hm * X) C HC Cexp V).2 = [Cexp] ∧
    (davidsonIterStep (fun X => Hm * X) C HC Cexp V).1.1
        = davidsonRotate C Cexp V := by
  subst hHC
  refine ⟨?_, rfl, rfl⟩
  show Hm * C * toRows₁ V + Hm * Cexp * toRows₂ V
      = Hm * (C * toRows₁ V + Cexp * toRows₂ V)
  rw [Matrix.mul_add, Matrix.mul_assoc, Matrix.mul_assoc]

/-- **C5, witness** for `iteration_keeps_hc_consistent`: a concrete
one-band/one-expansion instance with `Hm = 2·I`; the rotated image equals the
operator applied to the rotated block and the operator log is `[Cexp]`. -/
theorem iteration_keeps_hc_consistent_witness :
    ((!![2] : Matrix (Fin 1) (Fin 1) ℤ) = !![2] * !![1]) ∧
    ((davidsonIterStep (fun X => (!![2] : Matrix (Fin 1) (Fin 1) ℤ) * X)
        !![1] !![2] !![3] (fromRows (!![1] : Matrix (Fin 1) (Fin 1) ℤ) !![1])).1.2
      = !![2] * (davidsonIterStep (fun X => (!![2] : Matrix (Fin 1) (Fin 1) ℤ) * X)
        !![1] !![2] !![3] (fromRows (!![1] : Matrix (Fin 1) (Fin 1) ℤ) !![1])).1.1) ∧
    (davidsonIterStep (fun X => (!![2] : Matrix (Fin 1) (Fin 1) ℤ) * X)
        !![1] !![2] !![3] (fromRows (!![1] : Matrix (Fin 1) (Fin 1) ℤ) !![1])).2
      = [!![3]] := by
  have h : (!![2] : Matrix (Fin 1) (Fin 1) ℤ) = !![2] * !![1] := by decide
  have hmain := iteration_keeps_hc_consistent (!![2] : Matrix (Fin 1) (Fin 1) ℤ)
    !![1] !![2] !![3] (fromRows (!![1] : Matrix (Fin 1) (Fin 1) ℤ) !![1]) h
  exact ⟨h, hmain.1, hmain.2.1⟩

end TheoremsC5

section TheoremsC6

variable {R : Type} [CommRing R] [StarRing R]
variable {g b e : Type} [Fintype g] [Fintype b] [Fintype e]

/-- **C6.** The expanded subspace matrices assembled each iteration have the
stated block form: the overlap matrix's top-left (current × current) block is
the identity and the Hamiltonian matrix's top-left block is `diag(E)`; and in
each matrix the lower-left block — derived in the code as the conjugate
transpose of the computed upper-right block — is exactly the conjugate
transpose of the upper-right block. -/
theorem subspace_matrices_block_form [DecidableEq b] (O : Matrix g g R)
    (Evals : b → R) (C : Matrix g b R) (Cexp HCexp : Matrix g e R) :
    (subspaceOverlap O C Cexp).toBlocks₁₁ = 1 ∧
    (subspaceHam Evals C Cexp HCexp).toBlocks₁₁ = diagonal Evals ∧
    (subspaceOverlap O C Cexp).toBlocks₂₁
      = ((subspaceOverlap O C Cexp).toBlocks₁₂)ᴴ ∧
    (subspaceHam Evals C Cexp HCexp).toBlocks₂₁
      = ((subspaceHam Evals C Cexp HCexp).toBlocks₁₂)ᴴ := by
  refine ⟨rfl, rfl, ?_, ?_⟩
  · show (bandDotO O C Cexp)ᴴ = ((subspaceOverlap O C Cexp).toBlocks₁₂)ᴴ
    rfl
  · rfl

end TheoremsC6

section TheoremsC9

variable {R : Type} [CommRing R] [StarRing R]
variable {g b : Type} [Fintype g] [Fintype b]

/-- **C9, counterexample.** A valid run of the initial subspace
diagonalization on a non-orthonormal initial block that does not yield an
orthonormal block: with one band `C = (2)`, identity overlap metric and
identity Hamiltonian, the subspace Hamiltonian is `C ^ HC = (4)`, the
eigensolver output `V = (1)`, `E = (4)` satisfies the full `eigh` contract
(`Vᴴ V = 1` and `Vᴴ (C ^ HC) V = diag(E)`), yet the rotated block `C @ V` has
overlap matrix `(4) ≠ 1`.  This falsifies the claim that the initial
diagonalization orthonormalizes arbitrary (non-orthonormal) input blocks. -/
theorem initial_diag_counterexample :
    ((1 : Matrix (Fin 1) (Fin 1) ℤ)ᴴ * 1 = 1) ∧
    ((1 : Matrix (Fin 1) (Fin 1) ℤ)ᴴ *
        bandDot (!![2] : Matrix (Fin 1) (Fin 1) ℤ) (1 * !![2]) * 1
      = diagonal ![4]) ∧
    bandDotO (1 : Matrix (Fin 1) (Fin 1) ℤ) (initialRotate !![2] 1)
        (initialRotate !![2] 1) ≠ 1 := by
  refine ⟨by decide, by decide, by decide⟩

/-- **C9, amended.** If the initial orbital block supplied by the caller is
orthonormal under the (arbitrary) basis overlap metric, then the initial
subspace diagonalization — rotating by unitary eigenvectors `V` of the
subspace Hamiltonian `C ^ HC` (here `HC = Hm * C`) — yields a block that is
again orthonormal under the overlap metric and whose subspace Hamiltonian is
diagonal with the reported eigenvalues; for non-orthonormal input only the
diagonalization property survives (see the counterexample). -/
theorem initial_diag_amended [DecidableEq b] (O : Matrix g g R)
    (C : Matrix g b R) (Hm : Matrix g g R) (V : Matrix b b R) (Evals : b → R)
    (hC : bandDotO O C C = 1) (hV : Vᴴ * V = 1)
    (hdiag : Vᴴ * bandDot C (Hm * C) * V = diagonal Evals) :
    bandDotO O (initialRotate C V) (initialRotate C V) = 1 ∧
    bandDot (initialRotate C V) (Hm * initialRotate C V) = diagonal Evals := by
  constructor
  · show bandDotO O (C * V) (C * V) = 1
    rw [bandDotO_mul_right, hC, Matrix.mul_one, hV]
  · show (C * V)ᴴ * (Hm * (C * V)) = diagonal Evals
    rw [← hdiag]
    show (C * V)ᴴ * (Hm * (C * V)) = Vᴴ * (Cᴴ * (Hm * C)) * V
    rw [conjTranspose_mul]
    rw [Matrix.mul_assoc Vᴴ (Cᴴ * (Hm * C)) V, Matrix.mul_assoc Cᴴ (Hm * C) V,
      Matrix.mul_assoc Hm C V, Matrix.mul_assoc Vᴴ Cᴴ (Hm * (C * V))]

/-- **C9, witness** for `initial_diag_amended`: orthonormal one-band input
`C = (1)`, Hamiltonian `Hm = (3)`, eigensolver output `V = (1)`, `E = (3)`;
all hypotheses hold concretely and the rotated block is orthonormal with
diagonal subspace Hamiltonian. -/
theorem initial_diag_amended_witness :
    (bandDotO (1 : Matrix (Fin 1) (Fin 1) ℤ) !![1] !![1] = 1) ∧
    ((1 : Matrix (Fin 1) (Fin 1) ℤ)ᴴ * 1 = 1) ∧
    ((1 : Matrix (Fin 1) (Fin 1) ℤ)ᴴ *
        bandDot (!![1] : Matrix (Fin 1) (Fin 1) ℤ) (!![3] * !![1]) * 1
      = diagonal ![3]) ∧
    (bandDotO (1 : Matrix (Fin 1) (Fin 1) ℤ) (initialRotate !![1] 1)
        (initialRotate !![1] 1) = 1 ∧
      bandDot (initialRotate (!![1] : Matrix (Fin 1) (Fin 1) ℤ) 1)
        (!![3] * initialRotate !![1] 1) = diagonal ![3]) := by
  have h1 : bandDotO (1 : Matrix (Fin 1) (Fin 1) ℤ) !![1] !![1] = 1 := by decide
  have h2 : ((1 : Matrix (Fin 1) (Fin 1) ℤ)ᴴ * 1 = 1) := by decide
  have h3 : ((1 : Matrix (Fin 1) (Fin 1) ℤ)ᴴ *
      bandDot (!![1] : Matrix (Fin 1) (Fin 1) ℤ) (!![3] * !![1]) * 1
      = diagonal ![3]) := by decide
  exact ⟨h1, h2, h3, initial_diag_amended 1 !![1] !![3] 1 ![3] h1 h2 h3⟩

end TheoremsC9

section CheckDeigs

/-- One distributed partition's eigenvalue-change tensor `dE`, indexed by
(spin, k-point, band); only band indices below `n_bands` are consulted. -/
def DeigTensor (ns nk : ℕ) : Type := Fin ns → Fin nk → ℕ → ℚ

/-- The flattened entries of `dE[..., :n_bands]` for one partition. -/
def deigEntries (ns nk nb : ℕ) (dE : DeigTensor ns nk) : List ℚ :=
  (List.finRange ns).flatMap fun s =>
    (List.finRange nk).flatMap fun k =>
      (List.range nb).map fun j => dE s k j

/-- `dE[..., :n_bands].max().item()` for one partition (meaningful when the
spin, k and band dimensions are all nonempty, as the code requires). -/
def deigMaxLocal (ns nk nb : ℕ) (dE : DeigTensor ns nk) : ℚ :=
  (deigEntries ns nk nb dE).maximum.unbot' 0

/-- `eigs_pending = torch.where((dE[..., :n_bands] > eig_threshold)
.flatten(0, 1).any(dim=0))[0]` followed by
`eigs_pending[0].item() if len(eigs_pending) else n_bands`: the first band
index below `n_bands` at which some spin/k-point change strictly exceeds the
threshold, or `n_bands` if none does. -/
def pendingFirst (ns nk nb : ℕ) (dE : DeigTensor ns nk) (thr : ℚ) : ℕ :=
  (((List.range nb).find? fun j =>
    decide (∃ s : Fin ns, ∃ k : Fin nk, dE s k j > thr)).getD nb)

/-- `Davidson._check_deigs` with its two collective reductions over the list
of distributed partitions: `deig_max` is the `MPI.MAX` allreduce of the local
maxima, `n_eigs_done` the `MPI.MIN` allreduce of the local first-pending
indices. -/
def checkDeigs (ns nk nb : ℕ) (parts : List (DeigTensor ns nk)) (thr : ℚ) :
    ℚ × ℕ :=
  ((parts.map (deigMaxLocal ns nk nb)).maximum.unbot' 0,
   (parts.map fun dE => pendingFirst ns nk nb dE thr).minimum.untop' 0)

/-- The claim's characterization of the reduced maximum (stated from the
spec's words, for comparison with `checkDeigs`): `q` is attained by some
partition/spin/k-point/band below `n_bands` and bounds all of them. -/
def IsGlobalDeigMax (ns nk nb : ℕ) (parts : List (DeigTensor ns nk))
    (q : ℚ) : Prop :=
  (∃ dE ∈ parts, ∃ s k, ∃ j < nb, dE s k j = q) ∧
  (∀ dE ∈ parts, ∀ s k, ∀ j < nb, dE s k j ≤ q)

/-- The claim's characterization of the converged count (stated from the
spec's words): `c` is the smallest band index below `nb` at which `Pend`
holds, or `nb` when it holds nowhere below `nb`. -/
def IsFirstPendingIdx (nb : ℕ) (Pend : ℕ → Prop) (c : ℕ) : Prop :=
  (c = nb ∧ ∀ j < nb, ¬ Pend j) ∨ (c < nb ∧ Pend c ∧ ∀ j < c, ¬ Pend j)

end CheckDeigs

section CheckDeigsLemmas

/-- A nonempty list's maximum (with junk default) is a member and an upper
bound. -/
theorem maximum_unbotD_spec {α : Type} [LinearOrder α] (d : α) (l : List α)
    (h : l ≠ []) :
    l.maximum.unbot' d ∈ l ∧ ∀ x ∈ l, x ≤ l.maximum.unbot' d := by
  cases hm : l.maximum with
  | bot => exact absurd (List.maximum_eq_none.mp hm) h
  | coe m =>
    have hs := List.maximum_eq_coe_iff.mp hm
    simpa using hs

/-- A nonempty list's minimum (with junk default) is a member and a lower
bound. -/
theorem minimum_untopD_spec {α : Type} [LinearOrder α] (d : α) (l : List α)
    (h : l ≠ []) :
    l.minimum.untop' d ∈ l ∧ ∀ x ∈ l, l.minimum.untop' d ≤ x := by
  cases hm : l.minimum with
  | top => exact absurd (List.minimum_eq_none.mp hm) h
  | coe m =>
    have hs := List.minimum_eq_coe_iff.mp hm
    simpa using hs

/-- `find?` commutes with `map`. -/
theorem find?_map_eq {α β : Type} (f : α → β) (p : β → Bool) (l : List α) :
    (l.map f).find? p = (l.find? fun x => p (f x)).map f := by
  induction l with
  | nil => rfl
  | cons x t ih =>
    by_cases hx : p (f x)
    · simp [List.find?_cons_of_pos, hx]
    · simpa [List.find?_cons_of_neg, hx] using ih

/-- A successful `find?` on `List.range n` returns an index below `n` at which
the predicate first holds. -/
theorem find_range_first :
    ∀ (n : ℕ) (p : ℕ → Bool) (a : ℕ), (List.range n).find? p = some a →
      a < n ∧ ∀ j < a, p j = false := by
  intro n
  induction n with
  | zero => intro p a h; simp [List.range_zero] at h
  | succ n ih =>
    intro p a h
    rw [List.range_succ_eq_map] at h
    by_cases hp0 : p 0
    · rw [List.find?_cons_of_pos _ hp0] at h
      cases h
      exact ⟨Nat.succ_pos n, fun j hj => absurd hj (Nat.not_lt_zero j)⟩
    · rw [List.find?_cons_of_neg _ hp0, find?_map_eq] at h
      obtain ⟨a', ha', rfl⟩ := Option.map_eq_some'.mp h
      obtain ⟨hlt, hfirst⟩ := ih _ a' ha'
      refine ⟨Nat.succ_lt_succ hlt, fun j hj => ?_⟩
      cases j with
      | zero => exact Bool.eq_false_iff.mpr hp0
      | succ j' => exact hfirst j' (Nat.lt_of_succ_lt_succ hj)

/-- Membership in the flattened `dE[..., :n_bands]` entries. -/
theorem mem_deigEntries (ns nk nb : ℕ) (dE : DeigTensor ns nk) (q : ℚ) :
    q ∈ deigEntries ns nk nb dE ↔ ∃ s k, ∃ j < nb, dE s k j = q := by
  simp only [deigEntries, List.mem_flatMap, List.mem_map, List.mem_finRange,
    List.mem_range, true_and]

/-- The flattened entries are nonempty when all three dimensions are. -/
theorem deigEntries_ne_nil (ns nk nb : ℕ) (hns : ns ≠ 0) (hnk : nk ≠ 0)
    (hnb : nb ≠ 0) (dE : DeigTensor ns nk) :
    deigEntries ns nk nb dE ≠ [] := by
  intro hnil
  have hmem : dE ⟨0, Nat.pos_of_ne_zero hns⟩ ⟨0, Nat.pos_of_ne_zero hnk⟩ 0
      ∈ deigEntries ns nk nb dE :=
    (mem_deigEntries ns nk nb dE _).mpr
      ⟨_, _, 0, Nat.pos_of_ne_zero hnb, rfl⟩
  rw [hnil] at hmem
  exact List.not_mem_nil _ hmem

/-- The local first-pending index satisfies the claim's first-pending
characterization for the partition's own pending predicate. -/
theorem pendingFirst_spec (ns nk nb : ℕ) (dE : DeigTensor ns nk) (thr : ℚ) :
    IsFirstPendingIdx nb (fun j => ∃ s k, dE s k j > thr)
      (pendingFirst ns nk nb dE thr) := by
  unfold pendingFirst IsFirstPendingIdx
  cases hf : (List.range nb).find? fun j =>
      decide (∃ s : Fin ns, ∃ k : Fin nk, dE s k j > thr) with
  | none =>
    left
    refine ⟨rfl, fun j hj hpend => ?_⟩
    have := List.find?_eq_none.mp hf j (List.mem_range.mpr hj)
    simp at this
    obtain ⟨s, k, hsk⟩ := hpend
    exact absurd hsk (not_lt.mpr (this s k))
  | some a =>
    right
    have hpa := List.find?_some hf
    obtain ⟨hlt, hfirst⟩ := find_range_first nb _ a hf
    refine ⟨hlt, by simpa using hpa, fun j hj hpend => ?_⟩
    have := hfirst j hj
    simp at this
    obtain ⟨s, k, hsk⟩ := hpend
    exact absurd hsk (not_lt.mpr (this s k))

/-- A first-pending index is at most `nb`. -/
theorem isFirstPendingIdx_le (nb : ℕ) (P : ℕ → Prop) (c : ℕ)
    (h : IsFirstPendingIdx nb P c) : c ≤ nb := by
  rcases h with ⟨h1, -⟩ | ⟨h1, -, -⟩
  · exact h1.le
  · exact h1.le

/-- A first-pending index is a lower bound on every pending index below `nb`. -/
theorem isFirstPendingIdx_le_of_pend (nb : ℕ) (P : ℕ → Prop) (c : ℕ)
    (h : IsFirstPendingIdx nb P c) (j : ℕ) (hj : j < nb) (hPj : P j) :
    c ≤ j := by
  rcases h with ⟨-, h2⟩ | ⟨-, -, h3⟩
  · exact absurd hPj (h2 j hj)
  · by_contra hlt
    exact absurd hPj (h3 j (Nat.lt_of_not_le hlt))

end CheckDeigsLemmas

section TheoremsC4

/-- **C4.** `Davidson._check_deigs` computes (a) the maximum eigenvalue change
over the first `n_bands` bands (buffer bands excluded) of every spin and
k-point, reduced by a global maximum across all distributed partitions — the
returned value is attained somewhere and bounds every such change — and (b)
the smallest band index below `n_bands` at which any spin, k-point or
partition still has a change strictly greater than the threshold (`n_bands`
if none), reduced by a global minimum across partitions, so that the returned
converged count is the smallest value any partition computes. -/
theorem check_deigs_spec (ns nk nb : ℕ) (hns : ns ≠ 0) (hnk : nk ≠ 0)
    (hnb : nb ≠ 0) (parts : List (DeigTensor ns nk)) (hp : parts ≠ [])
    (thr : ℚ) :
    IsGlobalDeigMax ns nk nb parts (checkDeigs ns nk nb parts thr).1 ∧
    IsFirstPendingIdx nb (fun j => ∃ dE ∈ parts, ∃ s k, dE s k j > thr)
      (checkDeigs ns nk nb parts thr).2 ∧
    ((checkDeigs ns nk nb parts thr).2
        ∈ parts.map (fun dE => pendingFirst ns nk nb dE thr) ∧
      ∀ dE ∈ parts, (checkDeigs ns nk nb parts thr).2
        ≤ pendingFirst ns nk nb dE thr) := by
  have hmapM : parts.map (deigMaxLocal ns nk nb) ≠ [] := by
    simpa using hp
  have hmapP : parts.map (fun dE => pendingFirst ns nk nb dE thr) ≠ [] := by
    simpa using hp
  obtain ⟨hMmem, hMub⟩ := maximum_unbotD_spec 0 _ hmapM
  obtain ⟨hPmem, hPlb⟩ := minimum_untopD_spec 0 _ hmapP
  refine ⟨⟨?_, ?_⟩, ?_, hPmem, fun dE hdE => hPlb _ (List.mem_map_of_mem _ hdE)⟩
  · -- the global maximum is attained
    obtain ⟨dE0, hdE0, hval⟩ := List.mem_map.mp hMmem
    obtain ⟨hLmem, -⟩ := maximum_unbotD_spec 0 _
      (deigEntries_ne_nil ns nk nb hns hnk hnb dE0)
    obtain ⟨s, k, j, hj, hq⟩ := (mem_deigEntries ns nk nb dE0 _).mp hLmem
    exact ⟨dE0, hdE0, s, k, j, hj, by rw [hq]; exact hval⟩
  · -- the global maximum bounds every entry
    intro dE hdE s k j hj
    have hle1 : dE s k j ≤ deigMaxLocal ns nk nb dE :=
      (maximum_unbotD_spec 0 _
        (deigEntries_ne_nil ns nk nb hns hnk hnb dE)).2 _
        ((mem_deigEntries ns nk nb dE _).mpr ⟨s, k, j, hj, rfl⟩)
    exact hle1.trans (hMub _ (List.mem_map_of_mem _ hdE))
  · -- the reduced minimum is the first globally pending index
    obtain ⟨dE0, hdE0, hval⟩ := List.mem_map.mp hPmem
    set cmin := (checkDeigs ns nk nb parts thr).2 with hc
    have h0 : IsFirstPendingIdx nb (fun j => ∃ s k, dE0 s k j > thr) cmin := by
      rw [show cmin = pendingFirst ns nk nb dE0 thr from hval.symm]
      exact pendingFirst_spec ns nk nb dE0 thr
    rcases h0 with ⟨h1, h2⟩ | ⟨h1, h2, h3⟩
    · left
      refine ⟨h1, fun j hj hpend => ?_⟩
      obtain ⟨dE1, hdE1, s, k, hsk⟩ := hpend
      have hfirst1 := pendingFirst_spec ns nk nb dE1 thr
      have hle : pendingFirst ns nk nb dE1 thr ≤ j :=
        isFirstPendingIdx_le_of_pend nb _ _ hfirst1 j hj ⟨s, k, hsk⟩
      have hmin : cmin ≤ pendingFirst ns nk nb dE1 thr :=
        hPlb _ (List.mem_map_of_mem _ hdE1)
      omega
    · right
      refine ⟨h1, ⟨dE0, hdE0, h2⟩, fun j hj hpend => ?_⟩
      obtain ⟨dE1, hdE1, s, k, hsk⟩ := hpend
      have hfirst1 := pendingFirst_spec ns nk nb dE1 thr
      have hle : pendingFirst ns nk nb dE1 thr ≤ j :=
        isFirstPendingIdx_le_of_pend nb _ _ hfirst1 j (hj.trans h1) ⟨s, k, hsk⟩
      have hmin : cmin ≤ pendingFirst ns nk nb dE1 thr :=
        hPlb _ (List.mem_map_of_mem _ hdE1)
      omega

/-- **C4, witness** for `check_deigs_spec`: two partitions over one spin, one
k-point and two bands, threshold `0`; partition one has changes `(0, 1)`
(first pending index `1`), partition two `(1, 0)` (first pending index `0`);
the reduced results are maximum `1` and converged count `0`. -/
theorem check_deigs_spec_witness :
    (IsGlobalDeigMax 1 1 2
        [fun _ _ j => if j = 0 then 0 else 1, fun _ _ j => if j = 0 then 1 else 0]
        (checkDeigs 1 1 2
          [fun _ _ j => if j = 0 then 0 else 1, fun _ _ j => if j = 0 then 1 else 0]
          0).1 ∧
      IsFirstPendingIdx 2
        (fun j => ∃ dE ∈ ([fun _ _ j => if j = 0 then 0 else 1,
          fun _ _ j => if j = 0 then 1 else 0] :
            List (DeigTensor 1 1)), ∃ s k, dE s k j > (0 : ℚ))
        (checkDeigs 1 1 2
          [fun _ _ j => if j = 0 then 0 else 1, fun _ _ j => if j = 0 then 1 else 0]
          0).2) ∧
    (checkDeigs 1 1 2
        [fun _ _ j => if j = 0 then 0 else 1, fun _ _ j => if j = 0 then 1 else 0]
        0) = (1, 0) := by
  have hmain := check_deigs_spec 1 1 2 (by norm_num) (by norm_num) (by norm_num)
    [fun _ _ j => if j = 0 then 0 else 1, fun _ _ j => if j = 0 then 1 else 0]
    (by simp) 0
  exact ⟨⟨hmain.1, hmain.2.1⟩, by decide⟩

end TheoremsC4

section TheoremsC3

/-- The per-iteration convergence accounting of `Davidson.__call__`
(`deig_max, n_eigs_done = self._check_deigs(dE, eig_threshold)`, line 183),
applied to the sequence of eigenvalue-change tensors `dE` of the successive
iterations of a single-partition run: each iteration's converged count is
recomputed from that iteration's `dE` alone.  Modelled from the spec: the
change tensors are produced upstream by the external generalized eigensolver
`qp.utils.eighg` (repository code outside `src/`, specified only as returning
ascending eigenvalues), so they enter the model as unconstrained inputs. -/
def convergedCounts (ns nk nb : ℕ) (thr : ℚ)
    (dEs : List (DeigTensor ns nk)) : List ℕ :=
  dEs.map fun dE => (checkDeigs ns nk nb [dE] thr).2

/-- **C3, counterexample.** A two-iteration run (one spin, one k-point, two
bands, threshold `0`) in which the first iteration's changes are `(0, 1)` —
band 0 converged, count `1` — and the second iteration's changes are `(1, 1)`
— band 0's eigenvalue moved by more than the threshold again, count `0`.  The
produced converged-count sequence `[1, 0]` is decreasing, so the claimed
monotonicity fails: the code recomputes `n_eigs_done` from each iteration's
`dE` alone and never clamps it to its previous value. -/
theorem converged_count_not_monotone :
    convergedCounts 1 1 2 0
        [fun _ _ j => if j = 0 then 0 else 1, fun _ _ _ => 1] = [1, 0] ∧
      ¬ List.Chain' (fun a b => a ≤ b)
        (convergedCounts 1 1 2 0
          [fun _ _ j => if j = 0 then 0 else 1, fun _ _ _ => 1]) := by
  have h : convergedCounts 1 1 2 0
      [fun _ _ j => if j = 0 then 0 else 1, fun _ _ _ => 1] = [1, 0] := by decide
  refine ⟨h, ?_⟩
  rw [h]
  norm_num [List.chain'_cons]

/-- **C3, amended.** The converged count is recomputed each iteration as the
first band index whose change still exceeds the threshold; it is therefore
non-decreasing from one iteration to the next exactly on runs in which no band
below the previous count changes by more than the threshold again — and it can
decrease otherwise (see the counterexample). -/
theorem converged_count_monotone_of_stable (ns nk nb : ℕ) (thr : ℚ)
    (dE1 dE2 : DeigTensor ns nk)
    (hstable : ∀ j < (checkDeigs ns nk nb [dE1] thr).2,
      ∀ s k, dE2 s k j ≤ thr) :
    (checkDeigs ns nk nb [dE1] thr).2 ≤ (checkDeigs ns nk nb [dE2] thr).2 := by
  have hone : ∀ dE : DeigTensor ns nk,
      (checkDeigs ns nk nb [dE] thr).2 = pendingFirst ns nk nb dE thr := by
    intro dE
    show ([pendingFirst ns nk nb dE thr].minimum).untop' 0 = _
    rw [List.minimum_singleton]
    rfl
  rw [hone dE1] at hstable
  rw [hone dE1, hone dE2]
  have h2spec := pendingFirst_spec ns nk nb dE2 thr
  rcases h2spec with ⟨h1, -⟩ | ⟨h1, h2, -⟩
  · rw [h1]
    exact isFirstPendingIdx_le nb _ _ (pendingFirst_spec ns nk nb dE1 thr)
  · by_contra hlt
    push_neg at hlt
    obtain ⟨s, k, hsk⟩ := h2
    exact absurd hsk (not_lt.mpr (hstable _ hlt s k))

/-- **C3, witness** for `converged_count_monotone_of_stable`: first iteration
changes `(0, 1)` (count `1`), second iteration changes `(0, 0)` — no band
below the previous count exceeds the threshold again — and the count indeed
does not decrease (`1 ≤ 2`). -/
theorem converged_count_monotone_of_stable_witness :
    (∀ j < (checkDeigs 1 1 2 [fun _ _ j => if j = 0 then 0 else 1] 0).2,
      ∀ s k : Fin 1, (fun _ _ _ => (0 : ℚ)) s k j ≤ (0 : ℚ)) ∧
    (checkDeigs 1 1 2 [fun _ _ j => if j = 0 then 0 else 1] 0).2
      ≤ (checkDeigs 1 1 2 [fun _ _ _ => (0 : ℚ)] 0).2 := by
  have hstable : ∀ j < (checkDeigs 1 1 2
      [fun _ _ j => if j = 0 then 0 else 1] 0).2,
      ∀ s k : Fin 1, (fun _ _ _ => (0 : ℚ)) s k j ≤ (0 : ℚ) := by
    intro j hj s k
    norm_num
  exact ⟨hstable,
    converged_count_monotone_of_stable 1 1 2 0
      (fun _ _ j => if j = 0 then 0 else 1) (fun _ _ _ => 0) hstable⟩

end TheoremsC3

section Precondition

/-- The per-coefficient divisor built by `Davidson._precondition`
(lines 57-60): `x = ke / KEref` followed by `x += torch.exp(-x)`, so the
effective divisor is `x + exp(-x)` with `x` the local-to-reference
kinetic-energy ratio. -/
noncomputable def preconditionDivisor (ke keRef : ℝ) : ℝ :=
  ke / keRef + Real.exp (-(ke / keRef))

/-- `Davidson._precondition` itself (`result = Cerr / x`): each basis
coefficient of the residual block `Cerr` (bands indexed by `ι` over spin, k
and band jointly; basis coefficients by `γ`) is divided by the effective
divisor formed from the local kinetic energy `ke` of that basis coefficient
and the per-band reference kinetic energy `KEref`. -/
noncomputable def davidsonPrecondition {ι γ : Type} (Cerr : ι → γ → ℝ)
    (ke : γ → ℝ) (KEref : ι → ℝ) : ι → γ → ℝ :=
  fun i gg => Cerr i gg / (ke gg / KEref i + Real.exp (-(ke gg / KEref i)))

/-- The divisor asserted by the claim, stated from its words for comparison:
"(reference kinetic energy + local kinetic energy)". -/
noncomputable def claimDivisor (ke keRef : ℝ) : ℝ := keRef + ke

end Precondition

section TheoremsC8

/-- **C8, counterexample.** At local kinetic energy `1` and reference kinetic
energy `2`: the divisor the code applies is `1/2 + exp(-1/2) < 3/2`, strictly
below the claimed divisor `(reference + local) = 3`; subtracting the code's
decaying correction `exp(-x)` leaves the kinetic-energy *ratio* `1/2`, not the
sum `3`; and the preconditioned coefficient for a unit residual is `> 1/2`,
whereas scaling inversely by `(reference + local)` would give `1/3 < 1/2` — so
the coefficient is not scaled inversely by (reference + local) kinetic
energy. -/
theorem precondition_divisor_counterexample :
    preconditionDivisor 1 2 - Real.exp (-(1 / 2)) = 1 / 2 ∧
    claimDivisor 1 2 = 3 ∧
    preconditionDivisor 1 2 < claimDivisor 1 2 ∧
    1 / 2 < davidsonPrecondition (fun _ _ : Fin 1 => (1 : ℝ))
      (fun _ => 1) (fun _ => 2) 0 0 ∧
    davidsonPrecondition (fun _ _ : Fin 1 => (1 : ℝ)) (fun _ => 1)
      (fun _ => 2) 0 0 ≠ 1 / claimDivisor 1 2 := by
  have hexp1 : Real.exp (-((1 : ℝ) / 2)) < 1 := Real.exp_lt_one_iff.mpr (by norm_num)
  have hexp0 : 0 < Real.exp (-((1 : ℝ) / 2)) := Real.exp_pos _
  have hdiv : preconditionDivisor 1 2 = 1 / 2 + Real.exp (-((1 : ℝ) / 2)) := by
    unfold preconditionDivisor
    norm_num
  have hlt32 : preconditionDivisor 1 2 < 3 / 2 := by
    rw [hdiv]
    linarith
  have hpos : 0 < preconditionDivisor 1 2 := by
    rw [hdiv]
    linarith
  have hval : davidsonPrecondition (fun _ _ : Fin 1 => (1 : ℝ)) (fun _ => 1)
      (fun _ => 2) 0 0 = 1 / preconditionDivisor 1 2 := by
    unfold davidsonPrecondition preconditionDivisor
    norm_num
  have hclaim : claimDivisor 1 2 = 3 := by
    unfold claimDivisor
    norm_num
  have hgt : 1 / 2 < 1 / preconditionDivisor 1 2 := by
    rw [lt_div_iff hpos]
    linarith
  refine ⟨by rw [hdiv]; ring, hclaim, by rw [hclaim]; linarith, by rw [hval]; exact hgt, ?_⟩
  rw [hval, hclaim]
  intro heq
  rw [heq] at hgt
  norm_num at hgt

/-- **C8, amended.** `Davidson._precondition` returns a block of the same
shape in which each basis coefficient is divided by
`(local KE / reference KE) + exp(-(local KE / reference KE))` — the
kinetic-energy *ratio* with a decaying exponential correction added — and for
a positive reference kinetic energy this effective divisor is at least `1`
everywhere (so it never vanishes and preconditioning never blows up) and tends
to `1`, not `0`, as the local kinetic energy tends to `0`. -/
theorem davidson_precondition_amended {ι γ : Type} (keRef : ℝ)
    (h : 0 < keRef) :
    (∀ (Cerr : ι → γ → ℝ) (ke : γ → ℝ) (KEref : ι → ℝ) (i : ι) (gg : γ),
      davidsonPrecondition Cerr ke KEref i gg
        = Cerr i gg / preconditionDivisor (ke gg) (KEref i)) ∧
    (∀ ke : ℝ, 1 ≤ preconditionDivisor ke keRef) ∧
    Filter.Tendsto (fun ke => preconditionDivisor ke keRef)
      (nhds 0) (nhds 1) := by
  refine ⟨fun Cerr ke KEref i gg => rfl, fun ke => ?_, ?_⟩
  · unfold preconditionDivisor
    have := Real.add_one_le_exp (-(ke / keRef))
    linarith
  · have hc : Continuous fun ke : ℝ => ke / keRef + Real.exp (-(ke / keRef)) := by
      have h1 : Continuous fun ke : ℝ => ke / keRef := continuous_id.div_const keRef
      exact h1.add (Real.continuous_exp.comp h1.neg)
    have h0 : (fun ke : ℝ => ke / keRef + Real.exp (-(ke / keRef))) 0 = 1 := by
      norm_num
    exact hc.tendsto' 0 1 h0

/-- **C8, amended witness** for `davidson_precondition_amended` at reference
kinetic energy `1` (one band, one basis coefficient): the divisor bound and
the limit hold. -/
theorem davidson_precondition_amended_witness :
    (0 : ℝ) < 1 ∧
    (1 : ℝ) ≤ preconditionDivisor 5 1 ∧
    Filter.Tendsto (fun ke => preconditionDivisor ke 1) (nhds 0) (nhds 1) :=
  ⟨by norm_num,
   (davidson_precondition_amended (ι := Fin 1) (γ := Fin 1) 1 (by norm_num)).2.1 5,
   (davidson_precondition_amended (ι := Fin 1) (γ := Fin 1) 1 (by norm_num)).2.2⟩

end TheoremsC8

end QimpyDavidson
